import Mathlib

/-!
Verification of the reconciliation and naming engine of `zotero-git-sync`
(`src/zotero_git_sync/__main__.py`), as a shallow embedding in Lean 4.

Python strings are modelled as `String` (with the underlying `List Char`
used for character-level operations), `pathlib.Path` values as lists of
path components (`Path := List String`), and the file system as an
association list from paths to file identities, so that moves and
overwrites can be tracked exactly.
-/

namespace ZoteroGitSync

/-! ### Python string primitives -/

/-- The whitespace characters recognised by Python's `str.strip` / `str.split`
(restricted to the ASCII range, which is all that valid ledger files use). -/
def isWS (c : Char) : Bool :=
  c = ' ' || c = '\t' || c = '\n' || c = '\x0d' || c = '\x0b' || c = '\x0c'

/-- `str.strip()`: drop leading whitespace. -/
def dropLeadWS (l : List Char) : List Char :=
  l.dropWhile isWS

/-- `str.strip()`: drop leading and trailing whitespace. -/
def stripWS (l : List Char) : List Char :=
  ((dropLeadWS l).reverse.dropWhile isWS).reverse

/-- Accumulator loop for `str.split()` (split on whitespace runs,
discarding empty tokens). `cur` holds the current token, reversed. -/
def splitWSGo (cur : List Char) : List Char → List (List Char)
  | [] => if cur = [] then [] else [cur.reverse]
  | c :: rest =>
    if isWS c then
      if cur = [] then splitWSGo [] rest
      else cur.reverse :: splitWSGo [] rest
    else splitWSGo (c :: cur) rest

/-- Python `str.split()` with no separator argument. -/
def splitWS (l : List Char) : List (List Char) :=
  splitWSGo [] l

/-- Accumulator loop for `file.readlines()`: split at each newline; the
text after the final newline forms a last line only when it is nonempty.
Line terminators are dropped (the caller strips each line anyway). -/
def splitLinesGo (cur : List Char) : List Char → List (List Char)
  | [] => if cur = [] then [] else [cur.reverse]
  | c :: rest =>
    if c = '\n' then cur.reverse :: splitLinesGo [] rest
    else splitLinesGo (c :: cur) rest

/-- `file.readlines()`, modulo line terminators. -/
def splitLines (l : List Char) : List (List Char) :=
  splitLinesGo [] l

/-! ### Name Normalizer (`_normalize_name`, lines 49-72) -/

/-- Model of the external `unidecode` transliteration library: the library
is the identity on ASCII code points and maps every other character to an
ASCII string (a representative table of common accented characters is
included here; characters the library does not know are dropped). -/
def udChar (c : Char) : List Char :=
  if c.toNat ≤ 127 then [c]
  else if c = 'é' then ['e']
  else if c = 'è' then ['e']
  else if c = 'á' then ['a']
  else if c = 'à' then ['a']
  else if c = 'ö' then ['o']
  else if c = 'ü' then ['u']
  else if c = 'ß' then ['s', 's']
  else []

/-- `unidecode(name)` on the character list. -/
def udList (l : List Char) : List Char :=
  l.flatMap udChar

/-- Python `str.lower()`, on the ASCII range (the normalizer only applies
it to `unidecode` output, which is ASCII). -/
def pyLower (c : Char) : Char :=
  if 65 ≤ c.toNat ∧ c.toNat ≤ 90 then Char.ofNat (c.toNat + 32) else c

/-- The punctuation set replaced by `-` in `_normalize_name`
(lines 52-68 of the source, in source order). -/
def punctChars : List Char :=
  ['\n', '"', Char.ofNat 39, '.', ':', ';', ',', '!', '?',
   '(', ')', '[', ']', '+', '&', '_', ' ']

/-- One `name.replace(a, "-")` step. -/
def pyReplaceC (a : Char) (l : List Char) : List Char :=
  l.map (fun c => if c = a then '-' else c)

/-- The chain of `replace` calls of `_normalize_name`, in source order. -/
def replaceAllC (l : List Char) : List Char :=
  pyReplaceC ' ' (pyReplaceC '_' (pyReplaceC '&' (pyReplaceC '+'
    (pyReplaceC ']' (pyReplaceC '[' (pyReplaceC ')' (pyReplaceC '('
      (pyReplaceC '?' (pyReplaceC '!' (pyReplaceC ',' (pyReplaceC ';'
        (pyReplaceC ':' (pyReplaceC '.' (pyReplaceC (Char.ofNat 39)
          (pyReplaceC '"' (pyReplaceC '\n' l))))))))))))))))

/-- `sub(r"-+", "-", name)`: collapse every run of hyphens to one. -/
def squeezeHyphens : List Char → List Char
  | [] => []
  | [c] => [c]
  | a :: b :: rest =>
    if a = '-' ∧ b = '-' then squeezeHyphens (b :: rest)
    else a :: squeezeHyphens (b :: rest)

/-- `name.removeprefix("-")`: drop one leading hyphen if present. -/
def dropLeadHyphen : List Char → List Char
  | [] => []
  | c :: rest => if c = '-' then rest else c :: rest

/-- `name.removesuffix("-")`: drop one trailing hyphen if present. -/
def dropTrailHyphen : List Char → List Char
  | [] => []
  | [c] => if c = '-' then [] else [c]
  | a :: b :: rest => a :: dropTrailHyphen (b :: rest)

/-- `_normalize_name` (lines 49-72) on the character list. -/
def normalizeChars (l : List Char) : List Char :=
  dropTrailHyphen (dropLeadHyphen (squeezeHyphens (replaceAllC
    ((udList l).map pyLower))))

/-- Two adjacent characters do not form a hyphen run (the invariant
`sub(r"-+", "-", ...)` establishes, phrased for `List.Chain'`). -/
def noHyphenRun (a b : Char) : Prop :=
  ¬(a = '-' ∧ b = '-')

/-- `_normalize_name(name)` (lines 49-72). -/
def normalize_name (s : String) : String :=
  ⟨normalizeChars s.data⟩

/-! ### Paths and the remote item model -/

/-- A `pathlib.Path`, as its list of components. -/
abbrev Path : Type := List String

/-- `path / name`. -/
def pushComp (p : Path) (s : String) : Path :=
  p ++ [s]

/-- `path.name`: the final component. -/
def nameOf (p : Path) : String :=
  p.getLastD ""

/-- Split a file name into `(stem, suffix)` following `pathlib`
(`suffix` is nonempty only when the last dot is neither the first
nor the last character of the name). -/
def splitExtRev (name : List Char) : List Char × List Char :=
  match (name.reverse.span (fun c => c ≠ '.')) with
  | (_, []) => (name, [])
  | (ext, _dot :: restRev) =>
    if restRev = [] then (name, [])
    else if ext = [] then (name, [])
    else (restRev.reverse, '.' :: ext.reverse)

/-- `path.stem`. -/
def stemOf (p : Path) : String :=
  ⟨(splitExtRev (nameOf p).data).1⟩

/-- `path.suffix`. -/
def suffixOf (p : Path) : String :=
  ⟨(splitExtRev (nameOf p).data).2⟩

/-- One creator entry of a remote item (`item["data"]["creators"]`). -/
structure Creator where
  creatorType : String
  lastName : Option String
  name : String
deriving DecidableEq

/-- `item["data"]`. -/
structure ItemData where
  creators : List Creator
  title : String
deriving DecidableEq

/-- `item["meta"]` (`parsedDate` is optional). -/
structure ItemMeta where
  parsedDate : Option String
deriving DecidableEq

/-- A remote item, restricted to the fields the naming engine reads. -/
structure Item where
  data : ItemData
  meta : ItemMeta
deriving DecidableEq

/-! ### Filename Deriver (`_item_path`, lines 75-99) -/

/-- Lines 76-80: surnames of the author-typed creators, in listed order;
`lastName` when the creator has one, the whole `name` field otherwise. -/
def first_author_last_names (item : Item) : List String :=
  (item.data.creators.filter (fun c => c.creatorType = "author")).map
    (fun c => match c.lastName with
      | some l => l
      | none => c.name)

/-- Lines 81-82: append the `"noauthor"` sentinel and take element `[0]`. -/
def first_author_pick (item : Item) : String :=
  (first_author_last_names item ++ ["noauthor"]).headD ""

/-- Accumulator loop for Python `str.split(sep)` with a one-character
separator (empty pieces are kept, matching Python). -/
def splitOnCharGo (sep : Char) (cur : List Char) : List Char → List (List Char)
  | [] => [cur.reverse]
  | c :: rest =>
    if c = sep then cur.reverse :: splitOnCharGo sep [] rest
    else splitOnCharGo sep (c :: cur) rest

/-- Python `date.split(sep)` on the character list. -/
def splitOnChar (sep : Char) (l : List Char) : List (List Char) :=
  splitOnCharGo sep [] l

/-- Lines 83-96: the year token extracted from the date string — the
token after the last `/` when the date contains `/`, else the token
before the first `-` when it contains `-`, else the whole string; kept
to its last two characters when longer than two. -/
def year_of (date : String) : String :=
  let d := date.data
  let year :=
    if d.contains '/' then (splitOnChar '/' d).getLastD []
    else if d.contains '-' then (splitOnChar '-' d).headD []
    else d
  ⟨if year.length > 2 then year.drop (year.length - 2) else year⟩

/-- Line 98: the derived file name `f"{first_author_last_name}{year}-{title}.pdf"`. -/
def item_file_name (item : Item) : String :=
  let date := match item.meta.parsedDate with
    | some d => d
    | none => ""
  normalize_name (first_author_pick item) ++ year_of date ++ "-" ++
    normalize_name item.data.title ++ ".pdf"

/-- `_item_path(item, export_path)` (lines 75-99). -/
def item_path (item : Item) (export_path : Path) : Path :=
  pushComp export_path (item_file_name item)

/-! ### Identity Ledger (`_read_lock` lines 18-28, `_write_lock` lines 31-37) -/

/-- Parse one ledger line: `line.strip().split()` must yield exactly an
identifier and a file name (anything else raises `ValueError`), which are
stripped again and resolved against the export directory. -/
def parseLockLine (export_path : Path) (line : List Char) :
    Option (String × Path) :=
  match splitWS (stripWS line) with
  | [i, n] => some (⟨stripWS i⟩, pushComp export_path ⟨stripWS n⟩)
  | _ => none

/-- `_read_lock(lock_path, export_path)` applied to the file's text
(the `touch()` and the read itself are the ambient I/O). The resulting
association list is the Python dict in insertion order. -/
def read_lock (export_path : Path) (content : String) :
    Option (List (String × Path)) :=
  (splitLines content.data).mapM (parseLockLine export_path)

/-- Stable insertion used to model Python `sorted` by first component:
the new entry goes after every entry with a key `≤` its own. -/
def insertByKey (e : String × Path) : List (String × Path) → List (String × Path)
  | [] => [e]
  | f :: rest =>
    if e.1 < f.1 then e :: f :: rest
    else f :: insertByKey e rest

/-- `sorted(lock.items(), key=lambda item: item[0])`. -/
def sortLock (l : List (String × Path)) : List (String × Path) :=
  l.foldl (fun acc e => insertByKey e acc) []

/-- The text written for one ledger entry: `f"{item_id} {file_name}\n"`. -/
def lockLine (e : String × Path) : String :=
  e.1 ++ " " ++ nameOf e.2 ++ "\n"

/-- Concatenation of the written lines. -/
def joinLockLines : List (String × Path) → String
  | [] => ""
  | e :: rest => lockLine e ++ joinLockLines rest

/-- `_write_lock(lock_path, lock)` (lines 31-37), as the text written. -/
def write_lock (lock : List (String × Path)) : String :=
  joinLockLines (sortLock lock)

/-! ### File-system model

The file system is an association list from paths to file identities
(abstract tokens standing for the file contents), so that renames,
overwrites and losses are tracked exactly. -/

/-- A file system: each entry is a path holding a file identity. -/
abbrev FS : Type := List (Path × Nat)

/-- The identity of the file at `p`, when one exists (`Path.exists()`
is `(lookupFS fs p).isSome`). -/
def lookupFS : FS → Path → Option Nat
  | [], _ => none
  | (q, c) :: rest, p => if q = p then some c else lookupFS rest p

/-- Remove the entry at path `p` (the first one, which is the only one
when path keys are distinct). -/
def eraseFS : FS → Path → FS
  | [], _ => []
  | (q, c) :: rest, p => if q = p then rest else (q, c) :: eraseFS rest p

/-- `old.rename(new)` with POSIX semantics: the file at `old` moves to
`new`, silently replacing anything already at `new`. -/
def renameFS (fs : FS) (old new : Path) : FS :=
  match lookupFS fs old with
  | none => fs
  | some c => (new, c) :: eraseFS (eraseFS fs old) new

/-! ### Quarantine Resolver (`_move_to_subdir`, lines 102-109) -/

/-- The collision candidate `subdir_path / f"{path.stem}.{increment}{path.suffix}"`. -/
def collisionCand (subdir_path : Path) (path : Path) (increment : Nat) : Path :=
  pushComp subdir_path (stemOf path ++ "." ++ toString increment ++ suffixOf path)

/-- The `while new_path.exists()` loop of lines 105-108, with explicit
fuel standing for the (finite) number of occupied candidate names. -/
def resolveCollision (fs : FS) (subdir_path : Path) (path : Path)
    (increment : Nat) : Nat → Option Path
  | 0 => none
  | fuel + 1 =>
    let cand := collisionCand subdir_path path increment
    if (lookupFS fs cand).isSome then
      resolveCollision fs subdir_path path (increment + 1) fuel
    else some cand

/-- The destination chosen by `_move_to_subdir(path, subdir_path)`
(lines 102-109); the function itself then renames `path` there, which
`movePhase` below applies to the file system. -/
def move_to_subdir (fs : FS) (path : Path) (subdir_path : Path)
    (fuel : Nat) : Option Path :=
  let new_path := pushComp subdir_path (nameOf path)
  if (lookupFS fs new_path).isSome then
    resolveCollision fs subdir_path path 1 fuel
  else some new_path

/-! ### Reconciler (`_sync`, lines 232-277) -/

/-- Python `dict` lookup over an association list in insertion order: the
value of the last binding of the key (later bindings override earlier
ones, as in a dict comprehension). -/
def pyGetGen {α β : Type} [DecidableEq α] (l : List (α × β)) (key : α) :
    Option β :=
  l.foldl (fun acc e => if e.1 = key then some e.2 else acc) none

/-- Python `dict.get` for the identifier-keyed lock dict. -/
def pyGet (l : List (String × Path)) (key : String) : Option Path :=
  pyGetGen l key

/-- Python `dict` lookup for the path-keyed `move_paths` dict. -/
def pyGetP (l : List (Path × Path)) (key : Path) : Option Path :=
  pyGetGen l key

/-- Lines 232-239: `(item_id, lock.get(item_id, None), _item_path(item))`
for every collection item, in iteration order. -/
def itemPathsOf (items : List (String × Item)) (lock : List (String × Path))
    (export_path : Path) : List (String × Option Path × Path) :=
  items.map (fun e => (e.1, pyGet lock e.1, item_path e.2 export_path))

/-- Lines 242-246: the `move_paths` dict, keyed by the old (locked) path. -/
def movePathsOf (items : List (String × Item)) (lock : List (String × Path))
    (export_path : Path) : List (Path × Path) :=
  (itemPathsOf items lock export_path).filterMap
    (fun e => match e.2.1 with
      | some old => some (old, e.2.2)
      | none => none)

/-- Lines 256-260: the `(item_id, new_path)` pairs that will be downloaded
— exactly the items whose identifier was absent from the lock. -/
def downloadListOf (items : List (String × Item)) (lock : List (String × Path))
    (export_path : Path) : List (String × Path) :=
  (itemPathsOf items lock export_path).filterMap
    (fun e => match e.2.1 with
      | some _ => none
      | none => some (e.1, e.2.2))

/-- The renames performed by the loop of lines 247-253: each existing
path found in `move_paths` is renamed to its recorded target. -/
def renamesOf (items : List (String × Item)) (lock : List (String × Path))
    (export_path : Path) (existing : List Path) : List (Path × Path) :=
  existing.filterMap (fun p =>
    match pyGetP (movePathsOf items lock export_path) p with
    | some t => some (p, t)
    | none => none)

/-- The existing paths sent to `_move_to_subdir` by lines 251-253: those
with no `move_paths` entry. -/
def quarantinedOf (items : List (String × Item)) (lock : List (String × Path))
    (export_path : Path) (existing : List Path) : List Path :=
  existing.filter (fun p =>
    (pyGetP (movePathsOf items lock export_path) p).isNone)

/-- Line 276: the new lock, `{item_id: new_path}` over all items. -/
def newLockOf (items : List (String × Item)) (export_path : Path) :
    List (String × Path) :=
  items.map (fun e => (e.1, item_path e.2 export_path))

/-- One iteration of the loop of lines 247-253, applied to the file
system: rename to the `move_paths` target when there is one, otherwise
quarantine via `_move_to_subdir`. Fails (like Python raising) when the
processed path does not exist or the quarantine fuel runs out. -/
def processOne (move : List (Path × Path)) (subdir_path : Path) (fuel : Nat)
    (fs : FS) (p : Path) : Option FS :=
  match lookupFS fs p with
  | none => none
  | some _ =>
    match pyGetP move p with
    | some t => some (renameFS fs p t)
    | none =>
      match move_to_subdir fs p subdir_path fuel with
      | some q => some (renameFS fs p q)
      | none => none

/-- The whole move-or-quarantine loop of lines 247-253; `order` is the
iteration order of the `existing_paths` set. -/
def movePhase (fs : FS) (move : List (Path × Path)) (subdir_path : Path)
    (order : List Path) (fuel : Nat) : Option FS :=
  match order with
  | [] => some fs
  | p :: rest =>
    match processOne move subdir_path fuel fs p with
    | none => none
    | some fs₁ => movePhase fs₁ move subdir_path rest fuel

/-! ### Attachment download (`_download_pdf`, lines 112-134, and the
retrying transport configured in lines 187-193) -/

/-- An HTTP response: status code and body bytes. -/
structure Response where
  status : Nat
  content : List Nat
deriving DecidableEq

/-- The fatal transport failure raised once the adapter's retries are
exhausted. -/
inductive TransferFailure where
  | retriesExceeded
deriving DecidableEq

/-- `status_forcelist=[502, 503, 504]` (line 191). -/
def statusForcelist : List Nat := [502, 503, 504]

/-- The retrying adapter of lines 188-193 (`Retry(total=5, ...)`):
`server k` is the response to the `k`-th attempt; a status on the
forcelist consumes a retry, any other response is returned as-is, and
exhausting all retries raises. -/
def sessionGetGo (server : Nat → Response) (attempt : Nat) :
    Nat → Except TransferFailure Response
  | 0 =>
    if (server attempt).status ∈ statusForcelist then
      Except.error TransferFailure.retriesExceeded
    else Except.ok (server attempt)
  | left + 1 =>
    if (server attempt).status ∈ statusForcelist then
      sessionGetGo server (attempt + 1) left
    else Except.ok (server attempt)

/-- `session.get(...)` under `Retry(total=5)`. -/
def sessionGet (server : Nat → Response) : Except TransferFailure Response :=
  sessionGetGo server 0 5

/-- `_download_pdf` (lines 112-134): perform the transport request and
write `response.content` to the item path, with no status check of the
returned response. The written bytes are returned. -/
def download_pdf (server : Nat → Response) :
    Except TransferFailure (List Nat) :=
  match sessionGet server with
  | Except.error e => Except.error e
  | Except.ok r => Except.ok r.content

/-- The download loop plus commit of lines 266-284: every pending
download runs before anything is committed, and a transport error
unwinds the run. Returns the written contents and whether the commit
step was reached (`true`). -/
def downloadAndCommit (servers : List (Nat → Response)) :
    Except TransferFailure (List (List Nat) × Bool) :=
  match servers with
  | [] => Except.ok ([], true)
  | s :: rest =>
    match download_pdf s with
    | Except.error e => Except.error e
    | Except.ok content =>
      match downloadAndCommit rest with
      | Except.error e => Except.error e
      | Except.ok (cs, flag) => Except.ok (content :: cs, flag)

/-! ### Helper lemmas -/

theorem pushComp_inj (p : Path) : Function.Injective (pushComp p) := by
  intro a b hab
  unfold pushComp at hab
  simpa using List.append_cancel_left hab

theorem pyGetGen_foldl {α β : Type} [DecidableEq α] (l : List (α × β))
    (key : α) (acc : Option β) :
    l.foldl (fun acc e => if e.1 = key then some e.2 else acc) acc
      = match pyGetGen l key with
        | some v => some v
        | none => acc := by
  induction l generalizing acc with
  | nil => simp [pyGetGen]
  | cons e rest ih =>
    rw [List.foldl_cons]
    rw [ih]
    have hcons : pyGetGen (e :: rest) key
        = match pyGetGen rest key with
          | some v => some v
          | none => if e.1 = key then some e.2 else none := by
      unfold pyGetGen
      rw [List.foldl_cons]
      exact ih _
    rw [hcons]
    cases pyGetGen rest key with
    | some v => rfl
    | none =>
      by_cases h : e.1 = key
      · simp [h]
      · simp [h]

theorem pyGetGen_cons {α β : Type} [DecidableEq α] (e : α × β)
    (l : List (α × β)) (key : α) :
    pyGetGen (e :: l) key
      = match pyGetGen l key with
        | some v => some v
        | none => if e.1 = key then some e.2 else none := by
  unfold pyGetGen
  rw [List.foldl_cons]
  exact pyGetGen_foldl l key _

theorem pyGetGen_none_of_not_mem {α β : Type} [DecidableEq α]
    (l : List (α × β)) (key : α) (h : key ∉ l.map Prod.fst) :
    pyGetGen l key = none := by
  induction l with
  | nil => rfl
  | cons e rest ih =>
    rw [pyGetGen_cons]
    simp only [List.map_cons, List.mem_cons] at h
    push_neg at h
    rw [ih h.2]
    simp [Ne.symm h.1]

theorem pyGet_newLock (items : List (String × Item)) (export_path : Path)
    (hids : (items.map Prod.fst).Nodup) (a : String × Item) (ha : a ∈ items) :
    pyGet (newLockOf items export_path) a.1 = some (item_path a.2 export_path) := by
  induction items with
  | nil => simp at ha
  | cons b rest ih =>
    rw [List.map_cons, List.nodup_cons] at hids
    have hcons : newLockOf (b :: rest) export_path
        = (b.1, item_path b.2 export_path) :: newLockOf rest export_path := rfl
    rw [List.mem_cons] at ha
    unfold pyGet
    rw [hcons, pyGetGen_cons]
    rcases ha with rfl | ha
    · have hnone : pyGetGen (newLockOf rest export_path) a.1 = none := by
        apply pyGetGen_none_of_not_mem
        unfold newLockOf
        rw [List.map_map]
        simpa using hids.1
      rw [hnone]
      simp
    · have := ih hids.2 ha
      unfold pyGet at this
      rw [this]

theorem pyGetGen_diag {α : Type} [DecidableEq α] (l : List (α × α))
    (hdiag : ∀ e ∈ l, e.1 = e.2) (k : α) :
    pyGetGen l k = if k ∈ l.map Prod.fst then some k else none := by
  induction l with
  | nil => rfl
  | cons e rest ih =>
    rw [pyGetGen_cons]
    rw [ih (fun f hf => hdiag f (List.mem_cons_of_mem e hf))]
    by_cases hk : k ∈ rest.map Prod.fst
    · simp [hk]
    · have hdiag_e := hdiag e (List.mem_cons_self e rest)
      by_cases he : e.1 = k
      · subst he
        rw [if_neg hk]
        simp [← hdiag_e]
      · simp only [List.map_cons, List.mem_cons]
        simp [hk, he, Ne.symm he]

theorem movePaths_diag (items : List (String × Item)) (export_path : Path)
    (hids : (items.map Prod.fst).Nodup) :
    ∀ e ∈ movePathsOf items (newLockOf items export_path) export_path,
      e.1 = e.2 := by
  intro e he
  unfold movePathsOf at he
  rw [List.mem_filterMap] at he
  obtain ⟨x, hx, hmatch⟩ := he
  unfold itemPathsOf at hx
  rw [List.mem_map] at hx
  obtain ⟨a, ha, rfl⟩ := hx
  rw [pyGet_newLock items export_path hids a ha] at hmatch
  simp only [Option.some.injEq] at hmatch
  rw [← hmatch]

theorem movePaths_mem_keys (items : List (String × Item)) (export_path : Path)
    (hids : (items.map Prod.fst).Nodup) (a : String × Item) (ha : a ∈ items) :
    item_path a.2 export_path
      ∈ (movePathsOf items (newLockOf items export_path) export_path).map
          Prod.fst := by
  rw [List.mem_map]
  refine ⟨(item_path a.2 export_path, item_path a.2 export_path), ?_, rfl⟩
  unfold movePathsOf
  rw [List.mem_filterMap]
  refine ⟨(a.1, pyGet (newLockOf items export_path) a.1,
    item_path a.2 export_path), ?_, ?_⟩
  · unfold itemPathsOf
    rw [List.mem_map]
    exact ⟨a, ha, rfl⟩
  · rw [pyGet_newLock items export_path hids a ha]

theorem pyGetP_movePaths_self (items : List (String × Item))
    (export_path : Path) (hids : (items.map Prod.fst).Nodup)
    (a : String × Item) (ha : a ∈ items) :
    pyGetP (movePathsOf items (newLockOf items export_path) export_path)
        (item_path a.2 export_path)
      = some (item_path a.2 export_path) := by
  unfold pyGetP
  rw [pyGetGen_diag _ (movePaths_diag items export_path hids)]
  simp [movePaths_mem_keys items export_path hids a ha]

theorem toNat_ofNat_of_valid (n : Nat) (h : n < 55296) :
    (Char.ofNat n).toNat = n := by
  unfold Char.ofNat
  rw [dif_pos (Or.inl h)]
  rfl

theorem udChar_ascii (c : Char) : ∀ d ∈ udChar c, d.toNat ≤ 127 := by
  intro d hd
  unfold udChar at hd
  split_ifs at hd with h1 h2 h3 h4 h5 h6 h7 h8
  · rw [List.mem_singleton] at hd
    subst hd
    exact h1
  · rw [List.mem_singleton] at hd
    subst hd
    decide
  · rw [List.mem_singleton] at hd
    subst hd
    decide
  · rw [List.mem_singleton] at hd
    subst hd
    decide
  · rw [List.mem_singleton] at hd
    subst hd
    decide
  · rw [List.mem_singleton] at hd
    subst hd
    decide
  · rw [List.mem_singleton] at hd
    subst hd
    decide
  · rcases List.mem_cons.mp hd with rfl | hd'
    · decide
    · rw [List.mem_singleton] at hd'
      subst hd'
      decide
  · simp at hd

theorem udChar_of_ascii (c : Char) (h : c.toNat ≤ 127) : udChar c = [c] := by
  unfold udChar
  rw [if_pos h]

theorem udList_ascii (l : List Char) : ∀ d ∈ udList l, d.toNat ≤ 127 := by
  intro d hd
  unfold udList at hd
  rw [List.mem_flatMap] at hd
  obtain ⟨c, -, hdc⟩ := hd
  exact udChar_ascii c d hdc

theorem udList_of_ascii (l : List Char) (h : ∀ c ∈ l, c.toNat ≤ 127) :
    udList l = l := by
  induction l with
  | nil => rfl
  | cons c rest ih =>
    unfold udList
    rw [List.flatMap_cons, udChar_of_ascii c (h c (List.mem_cons_self c rest))]
    have hrest := ih (fun d hd => h d (List.mem_cons_of_mem c hd))
    unfold udList at hrest
    rw [hrest]
    rfl

theorem pyLower_toNat_of_upper (c : Char) (h : 65 ≤ c.toNat ∧ c.toNat ≤ 90) :
    (pyLower c).toNat = c.toNat + 32 := by
  unfold pyLower
  rw [if_pos h]
  exact toNat_ofNat_of_valid _ (by omega)

theorem pyLower_ascii (c : Char) (h : c.toNat ≤ 127) :
    (pyLower c).toNat ≤ 127 := by
  by_cases hu : 65 ≤ c.toNat ∧ c.toNat ≤ 90
  · rw [pyLower_toNat_of_upper c hu]
    omega
  · unfold pyLower
    rw [if_neg hu]
    exact h

theorem pyLower_not_upper (c : Char) :
    ¬(65 ≤ (pyLower c).toNat ∧ (pyLower c).toNat ≤ 90) := by
  by_cases hu : 65 ≤ c.toNat ∧ c.toNat ≤ 90
  · rw [pyLower_toNat_of_upper c hu]
    omega
  · unfold pyLower
    rw [if_neg hu]
    exact hu

theorem pyLower_id (c : Char) (h : ¬(65 ≤ c.toNat ∧ c.toNat ≤ 90)) :
    pyLower c = c := by
  unfold pyLower
  rw [if_neg h]

theorem map_id_of_forall {α : Type} (l : List α) (f : α → α)
    (h : ∀ c ∈ l, f c = c) : l.map f = l := by
  induction l with
  | nil => rfl
  | cons c rest ih =>
    rw [List.map_cons, h c (List.mem_cons_self c rest),
      ih (fun d hd => h d (List.mem_cons_of_mem c hd))]

theorem replaceAllC_cons (c : Char) (l : List Char) :
    replaceAllC (c :: l) = replaceAllC [c] ++ replaceAllC l := by
  simp [replaceAllC, pyReplaceC]

theorem replaceAllC_single (c : Char) :
    replaceAllC [c] = [if c ∈ punctChars then '-' else c] := by
  by_cases h1 : c = '\n'
  · subst h1; decide
  by_cases h2 : c = '"'
  · subst h2; decide
  by_cases h3 : c = Char.ofNat 39
  · subst h3; decide
  by_cases h4 : c = '.'
  · subst h4; decide
  by_cases h5 : c = ':'
  · subst h5; decide
  by_cases h6 : c = ';'
  · subst h6; decide
  by_cases h7 : c = ','
  · subst h7; decide
  by_cases h8 : c = '!'
  · subst h8; decide
  by_cases h9 : c = '?'
  · subst h9; decide
  by_cases h10 : c = '('
  · subst h10; decide
  by_cases h11 : c = ')'
  · subst h11; decide
  by_cases h12 : c = '['
  · subst h12; decide
  by_cases h13 : c = ']'
  · subst h13; decide
  by_cases h14 : c = '+'
  · subst h14; decide
  by_cases h15 : c = '&'
  · subst h15; decide
  by_cases h16 : c = '_'
  · subst h16; decide
  by_cases h17 : c = ' '
  · subst h17; decide
  have hmem : c ∉ punctChars := by
    simp [punctChars, h1, h2, h3, h4, h5, h6, h7, h8, h9, h10, h11, h12,
      h13, h14, h15, h16, h17]
  simp [replaceAllC, pyReplaceC, h1, h2, h3, h4, h5, h6, h7, h8, h9, h10,
    h11, h12, h13, h14, h15, h16, h17, hmem]

theorem replaceAllC_eq_map (l : List Char) :
    replaceAllC l = l.map (fun c => if c ∈ punctChars then '-' else c) := by
  induction l with
  | nil => rfl
  | cons c rest ih =>
    rw [replaceAllC_cons, replaceAllC_single, ih, List.map_cons]
    rfl

theorem replaceAll_noPunct (l : List Char) :
    ∀ c ∈ replaceAllC l, c ∉ punctChars := by
  intro c hc
  rw [replaceAllC_eq_map, List.mem_map] at hc
  obtain ⟨d, -, hd⟩ := hc
  by_cases hmem : d ∈ punctChars
  · rw [if_pos hmem] at hd
    subst hd
    decide
  · rw [if_neg hmem] at hd
    subst hd
    exact hmem

theorem replaceAll_id (l : List Char) (h : ∀ c ∈ l, c ∉ punctChars) :
    replaceAllC l = l := by
  rw [replaceAllC_eq_map]
  exact map_id_of_forall l _ (fun c hc => if_neg (h c hc))

theorem replaceAll_ascii (l : List Char) (h : ∀ c ∈ l, c.toNat ≤ 127) :
    ∀ c ∈ replaceAllC l, c.toNat ≤ 127 := by
  intro c hc
  rw [replaceAllC_eq_map, List.mem_map] at hc
  obtain ⟨d, hd, hc⟩ := hc
  by_cases hmem : d ∈ punctChars
  · rw [if_pos hmem] at hc
    subst hc
    decide
  · rw [if_neg hmem] at hc
    subst hc
    exact h d hd

theorem replaceAll_not_upper (l : List Char)
    (h : ∀ c ∈ l, ¬(65 ≤ c.toNat ∧ c.toNat ≤ 90)) :
    ∀ c ∈ replaceAllC l, ¬(65 ≤ c.toNat ∧ c.toNat ≤ 90) := by
  intro c hc
  rw [replaceAllC_eq_map, List.mem_map] at hc
  obtain ⟨d, hd, hc⟩ := hc
  by_cases hmem : d ∈ punctChars
  · rw [if_pos hmem] at hc
    subst hc
    decide
  · rw [if_neg hmem] at hc
    subst hc
    exact h d hd

theorem squeeze_cons_cons (a b : Char) (rest : List Char) :
    squeezeHyphens (a :: b :: rest) =
      if a = '-' ∧ b = '-' then squeezeHyphens (b :: rest)
      else a :: squeezeHyphens (b :: rest) := rfl

theorem squeeze_head : ∀ (x : Char) (xs : List Char),
    ∃ ys, squeezeHyphens (x :: xs) = x :: ys
  | _, [] => ⟨[], rfl⟩
  | x, y :: rest => by
    obtain ⟨ys, hy⟩ := squeeze_head y rest
    rw [squeeze_cons_cons]
    by_cases h : x = '-' ∧ y = '-'
    · rw [if_pos h, hy]
      exact ⟨ys, by rw [h.1, h.2]⟩
    · exact ⟨squeezeHyphens (y :: rest), by rw [if_neg h]⟩

theorem squeeze_chain : ∀ l : List Char,
    List.Chain' noHyphenRun (squeezeHyphens l)
  | [] => List.chain'_nil
  | [c] => List.chain'_singleton c
  | a :: b :: rest => by
    have hrec := squeeze_chain (b :: rest)
    obtain ⟨ys, hy⟩ := squeeze_head b rest
    rw [squeeze_cons_cons]
    by_cases h : a = '-' ∧ b = '-'
    · rw [if_pos h]
      exact hrec
    · rw [if_neg h, hy]
      rw [hy] at hrec
      exact List.chain'_cons.mpr ⟨h, hrec⟩

theorem squeeze_id : ∀ l : List Char,
    List.Chain' noHyphenRun l → squeezeHyphens l = l
  | [] => fun _ => rfl
  | [_] => fun _ => rfl
  | a :: b :: rest => fun h => by
    rw [List.chain'_cons] at h
    rw [squeeze_cons_cons, if_neg h.1, squeeze_id (b :: rest) h.2]

theorem squeeze_subset : ∀ l : List Char, ∀ c ∈ squeezeHyphens l, c ∈ l
  | [] => by simp [squeezeHyphens]
  | [d] => by
    intro c hc
    exact hc
  | a :: b :: rest => by
    intro c hc
    rw [squeeze_cons_cons] at hc
    by_cases h : a = '-' ∧ b = '-'
    · rw [if_pos h] at hc
      exact List.mem_cons_of_mem a (squeeze_subset (b :: rest) c hc)
    · rw [if_neg h] at hc
      rcases List.mem_cons.mp hc with rfl | hc'
      · exact List.mem_cons_self c (b :: rest)
      · exact List.mem_cons_of_mem a (squeeze_subset (b :: rest) c hc')

theorem dropLead_cons (c : Char) (rest : List Char) :
    dropLeadHyphen (c :: rest) = if c = '-' then rest else c :: rest := rfl

theorem dropTrail_single (c : Char) :
    dropTrailHyphen [c] = if c = '-' then [] else [c] := rfl

theorem dropLead_chain (l : List Char) (h : List.Chain' noHyphenRun l) :
    List.Chain' noHyphenRun (dropLeadHyphen l) := by
  cases l with
  | nil => exact h
  | cons c rest =>
    rw [dropLead_cons]
    by_cases hc : c = '-'
    · rw [if_pos hc]
      exact h.tail
    · rw [if_neg hc]
      exact h

theorem dropLead_headOk (l : List Char) (h : List.Chain' noHyphenRun l) :
    (dropLeadHyphen l).head? ≠ some '-' := by
  cases l with
  | nil => simp [dropLeadHyphen]
  | cons c rest =>
    rw [dropLead_cons]
    by_cases hc : c = '-'
    · rw [if_pos hc]
      cases rest with
      | nil => simp
      | cons d rest' =>
        rw [List.chain'_cons] at h
        have hd : d ≠ '-' := fun hd => h.1 ⟨hc, hd⟩
        simp [hd]
    · rw [if_neg hc]
      simp [hc]

theorem dropLead_id (l : List Char) (h : l.head? ≠ some '-') :
    dropLeadHyphen l = l := by
  cases l with
  | nil => rfl
  | cons c rest =>
    have hc : c ≠ '-' := by
      intro hc
      exact h (by rw [hc]; rfl)
    rw [dropLead_cons, if_neg hc]

theorem dropLead_subset (l : List Char) : ∀ c ∈ dropLeadHyphen l, c ∈ l := by
  cases l with
  | nil => simp [dropLeadHyphen]
  | cons d rest =>
    intro c hc
    rw [dropLead_cons] at hc
    by_cases hd : d = '-'
    · rw [if_pos hd] at hc
      exact List.mem_cons_of_mem d hc
    · rw [if_neg hd] at hc
      exact hc

theorem dropTrail_cons_cons (a b : Char) (rest : List Char) :
    dropTrailHyphen (a :: b :: rest) = a :: dropTrailHyphen (b :: rest) := rfl

theorem dropTrail_head : ∀ (x : Char) (xs : List Char),
    dropTrailHyphen (x :: xs) = [] ∨
      ∃ ys, dropTrailHyphen (x :: xs) = x :: ys
  | x, [] => by
    rw [show dropTrailHyphen [x] = if x = '-' then [] else [x] from rfl]
    by_cases hx : x = '-'
    · rw [if_pos hx]
      exact Or.inl rfl
    · rw [if_neg hx]
      exact Or.inr ⟨[], rfl⟩
  | x, y :: rest => Or.inr ⟨dropTrailHyphen (y :: rest), rfl⟩

theorem dropTrail_nil_cases : ∀ (x : Char) (xs : List Char),
    dropTrailHyphen (x :: xs) = [] → x = '-' ∧ xs = []
  | x, [] => by
    rw [show dropTrailHyphen [x] = if x = '-' then [] else [x] from rfl]
    by_cases hx : x = '-'
    · rw [if_pos hx]
      exact fun _ => ⟨hx, rfl⟩
    · rw [if_neg hx]
      intro hcontra
      simp at hcontra
  | x, y :: rest => by
    rw [dropTrail_cons_cons]
    intro hcontra
    simp at hcontra

theorem dropTrail_chain : ∀ l : List Char,
    List.Chain' noHyphenRun l → List.Chain' noHyphenRun (dropTrailHyphen l)
  | [] => fun h => h
  | [c] => fun _ => by
    rw [dropTrail_single]
    by_cases hc : c = '-'
    · rw [if_pos hc]
      exact List.chain'_nil
    · rw [if_neg hc]
      exact List.chain'_singleton c
  | a :: b :: rest => fun h => by
    rw [List.chain'_cons] at h
    have hrec := dropTrail_chain (b :: rest) h.2
    rw [dropTrail_cons_cons]
    rcases dropTrail_head b rest with hnil | ⟨ys, hy⟩
    · rw [hnil]
      exact List.chain'_singleton a
    · rw [hy] at hrec ⊢
      exact List.chain'_cons.mpr ⟨h.1, hrec⟩

theorem dropTrail_lastOk : ∀ l : List Char,
    List.Chain' noHyphenRun l → (dropTrailHyphen l).getLast? ≠ some '-'
  | [] => fun _ => by simp [dropTrailHyphen]
  | [c] => fun _ => by
    rw [dropTrail_single]
    by_cases hc : c = '-'
    · rw [if_pos hc]
      simp
    · rw [if_neg hc]
      simp [hc]
  | a :: b :: rest => fun h => by
    rw [List.chain'_cons] at h
    have hrec := dropTrail_lastOk (b :: rest) h.2
    rw [dropTrail_cons_cons]
    rcases dropTrail_head b rest with hnil | ⟨ys, hy⟩
    · rw [hnil]
      obtain ⟨hb, -⟩ := dropTrail_nil_cases b rest hnil
      have ha : a ≠ '-' := fun ha => h.1 ⟨ha, hb⟩
      simp [ha]
    · rw [hy] at hrec ⊢
      rw [List.getLast?_cons_cons]
      exact hrec

theorem dropTrail_id : ∀ l : List Char,
    l.getLast? ≠ some '-' → dropTrailHyphen l = l
  | [] => fun _ => rfl
  | [c] => fun h => by
    have hc : c ≠ '-' := by
      intro hc
      exact h (by rw [hc]; rfl)
    rw [dropTrail_single, if_neg hc]
  | a :: b :: rest => fun h => by
    rw [List.getLast?_cons_cons] at h
    rw [dropTrail_cons_cons, dropTrail_id (b :: rest) h]

theorem dropTrail_headOk (l : List Char) (h : l.head? ≠ some '-') :
    (dropTrailHyphen l).head? ≠ some '-' := by
  cases l with
  | nil => simp [dropTrailHyphen]
  | cons x xs =>
    rcases dropTrail_head x xs with hnil | ⟨ys, hy⟩
    · rw [hnil]
      simp
    · rw [hy]
      simpa using h

theorem dropTrail_subset : ∀ l : List Char, ∀ c ∈ dropTrailHyphen l, c ∈ l
  | [] => by simp [dropTrailHyphen]
  | [d] => by
    intro c hc
    rw [dropTrail_single] at hc
    by_cases hd : d = '-'
    · rw [if_pos hd] at hc
      simp at hc
    · rw [if_neg hd] at hc
      exact hc
  | a :: b :: rest => by
    intro c hc
    rw [dropTrail_cons_cons] at hc
    rcases List.mem_cons.mp hc with rfl | hc'
    · exact List.mem_cons_self c (b :: rest)
    · exact List.mem_cons_of_mem a (dropTrail_subset (b :: rest) c hc')

theorem normalizeChars_props (l out : List Char)
    (hout : normalizeChars l = out) :
    (∀ c ∈ out, c.toNat ≤ 127) ∧
    (∀ c ∈ out, ¬(65 ≤ c.toNat ∧ c.toNat ≤ 90)) ∧
    (∀ c ∈ out, c ∉ punctChars) ∧
    List.Chain' noHyphenRun out ∧
    out.head? ≠ some '-' ∧
    out.getLast? ≠ some '-' := by
  have a1 : ∀ c ∈ (udList l).map pyLower, c.toNat ≤ 127 := by
    intro c hc
    rw [List.mem_map] at hc
    obtain ⟨d, hd, rfl⟩ := hc
    exact pyLower_ascii d (udList_ascii l d hd)
  have u1 : ∀ c ∈ (udList l).map pyLower, ¬(65 ≤ c.toNat ∧ c.toNat ≤ 90) := by
    intro c hc
    rw [List.mem_map] at hc
    obtain ⟨d, -, rfl⟩ := hc
    exact pyLower_not_upper d
  obtain ⟨m, hm⟩ : ∃ m, replaceAllC ((udList l).map pyLower) = m := ⟨_, rfl⟩
  unfold normalizeChars at hout
  rw [hm] at hout
  subst hout
  have a2 : ∀ c ∈ m, c.toNat ≤ 127 := by
    rw [← hm]
    exact replaceAll_ascii _ a1
  have u2 : ∀ c ∈ m, ¬(65 ≤ c.toNat ∧ c.toNat ≤ 90) := by
    rw [← hm]
    exact replaceAll_not_upper _ u1
  have p2 : ∀ c ∈ m, c ∉ punctChars := by
    rw [← hm]
    exact replaceAll_noPunct _
  have ch3 := squeeze_chain m
  have sub3 := squeeze_subset m
  have ch4 := dropLead_chain _ ch3
  have hd4 := dropLead_headOk _ ch3
  have sub4 := dropLead_subset (squeezeHyphens m)
  refine ⟨?_, ?_, ?_, dropTrail_chain _ ch4, dropTrail_headOk _ hd4,
    dropTrail_lastOk _ ch4⟩
  · intro c hc
    exact a2 c (sub3 c (sub4 c (dropTrail_subset _ c hc)))
  · intro c hc
    exact u2 c (sub3 c (sub4 c (dropTrail_subset _ c hc)))
  · intro c hc
    exact p2 c (sub3 c (sub4 c (dropTrail_subset _ c hc)))

theorem normalizeChars_idem (l : List Char) :
    normalizeChars (normalizeChars l) = normalizeChars l := by
  obtain ⟨out, hout⟩ : ∃ out, normalizeChars l = out := ⟨_, rfl⟩
  obtain ⟨a, u, p, ch, hd, lst⟩ := normalizeChars_props l out hout
  rw [hout]
  unfold normalizeChars
  rw [udList_of_ascii out a,
    map_id_of_forall out pyLower (fun c hc => pyLower_id c (u c hc)),
    replaceAll_id out p, squeeze_id out ch, dropLead_id out hd]
  exact dropTrail_id out lst

theorem insertByKey_cons (e f : String × Path) (rest : List (String × Path)) :
    insertByKey e (f :: rest) =
      if e.1 < f.1 then e :: f :: rest else f :: insertByKey e rest := rfl

theorem insertByKey_of_lt (e : String × Path) (acc : List (String × Path))
    (h : ∀ f ∈ acc, f.1 < e.1) : insertByKey e acc = acc ++ [e] := by
  induction acc with
  | nil => rfl
  | cons f rest ih =>
    rw [insertByKey_cons,
      if_neg (lt_asymm (h f (List.mem_cons_self f rest))),
      ih (fun g hg => h g (List.mem_cons_of_mem f hg))]
    rfl

theorem sortLock_go (l : List (String × Path)) :
    ∀ acc, List.Pairwise (fun a b => a.1 < b.1) l →
      (∀ e ∈ l, ∀ f ∈ acc, f.1 < e.1) →
      l.foldl (fun acc e => insertByKey e acc) acc = acc ++ l := by
  induction l with
  | nil =>
    intro acc _ _
    simp
  | cons e rest ih =>
    intro acc hp hacc
    rw [List.foldl_cons,
      insertByKey_of_lt e acc (hacc e (List.mem_cons_self e rest))]
    rw [List.pairwise_cons] at hp
    rw [ih (acc ++ [e]) hp.2 ?_]
    · simp
    · intro g hg f hf
      rcases List.mem_append.mp hf with hf' | hf'
      · exact hacc g (List.mem_cons_of_mem e hg) f hf'
      · rw [List.mem_singleton] at hf'
        subst hf'
        exact hp.1 g hg

theorem sortLock_sorted (lock : List (String × Path))
    (h : List.Pairwise (fun a b => a.1 < b.1) lock) : sortLock lock = lock := by
  unfold sortLock
  rw [sortLock_go lock [] h (by simp)]
  rfl

theorem dropWhileWS_eq_self (l : List Char)
    (h : ∀ c, l.head? = some c → isWS c = false) : l.dropWhile isWS = l := by
  cases l with
  | nil => rfl
  | cons c rest =>
    rw [List.dropWhile_cons_of_neg]
    simp [h c rfl]

theorem stripWS_eq_self (l : List Char)
    (hh : ∀ c, l.head? = some c → isWS c = false)
    (hl : ∀ c, l.getLast? = some c → isWS c = false) :
    stripWS l = l := by
  unfold stripWS dropLeadWS
  rw [dropWhileWS_eq_self l hh]
  rw [dropWhileWS_eq_self l.reverse ?_]
  · exact List.reverse_reverse l
  · intro c hc
    rw [List.head?_reverse] at hc
    exact hl c hc

theorem stripWS_eq_self_of_all (l : List Char)
    (h : ∀ c ∈ l, isWS c = false) : stripWS l = l := by
  apply stripWS_eq_self
  · intro c hc
    cases l with
    | nil => simp at hc
    | cons d rest =>
      rw [List.head?_cons, Option.some_inj] at hc
      subst hc
      exact h _ (List.mem_cons_self _ _)
  · intro c hc
    exact h c (List.mem_of_mem_getLast? hc)

theorem splitWSGo_cons (cur : List Char) (c : Char) (rest : List Char) :
    splitWSGo cur (c :: rest) =
      if isWS c then
        if cur = [] then splitWSGo [] rest
        else cur.reverse :: splitWSGo [] rest
      else splitWSGo (c :: cur) rest := rfl

theorem splitWSGo_token (tok : List Char) (htok : ∀ c ∈ tok, isWS c = false) :
    ∀ cur rest, splitWSGo cur (tok ++ rest) = splitWSGo (tok.reverse ++ cur) rest := by
  induction tok with
  | nil =>
    intro cur rest
    simp
  | cons c cs ih =>
    intro cur rest
    rw [List.cons_append, splitWSGo_cons,
      if_neg (by simp [htok c (List.mem_cons_self c cs)]),
      ih (fun d hd => htok d (List.mem_cons_of_mem c hd)) (c :: cur) rest]
    simp

theorem splitWSGo_nil (cur : List Char) :
    splitWSGo cur [] = if cur = [] then [] else [cur.reverse] := rfl

theorem splitWS_pair (i n : List Char) (hi : i ≠ []) (hn : n ≠ [])
    (hwi : ∀ c ∈ i, isWS c = false) (hwn : ∀ c ∈ n, isWS c = false) :
    splitWS (i ++ ' ' :: n) = [i, n] := by
  unfold splitWS
  rw [splitWSGo_token i hwi [] (' ' :: n), splitWSGo_cons,
    if_pos (by decide), if_neg (by simp [hi])]
  have hn2 : splitWSGo ([] : List Char) n = [n] := by
    rw [show splitWSGo ([] : List Char) n = splitWSGo [] (n ++ []) from by
      rw [List.append_nil]]
    rw [splitWSGo_token n hwn [] [], splitWSGo_nil,
      if_neg (by simp [hn])]
    simp
  rw [hn2]
  simp

theorem parseLockLine_ok (export_path : Path) (i n : String)
    (hi : i.data ≠ []) (hn : n.data ≠ [])
    (hwi : ∀ c ∈ i.data, isWS c = false) (hwn : ∀ c ∈ n.data, isWS c = false) :
    parseLockLine export_path (i.data ++ ' ' :: n.data)
      = some (i, pushComp export_path n) := by
  unfold parseLockLine
  have hstrip : stripWS (i.data ++ ' ' :: n.data) = i.data ++ ' ' :: n.data := by
    apply stripWS_eq_self
    · intro c hc
      cases hid : i.data with
      | nil => exact absurd hid hi
      | cons d rest =>
        rw [hid, List.cons_append, List.head?_cons, Option.some_inj] at hc
        subst hc
        exact hwi _ (by rw [hid]; exact List.mem_cons_self _ _)
    · intro c hc
      rw [show i.data ++ ' ' :: n.data = (i.data ++ [' ']) ++ n.data from by simp,
        List.getLast?_append] at hc
      cases hnd : n.data.getLast? with
      | none =>
        rw [List.getLast?_eq_none_iff] at hnd
        exact absurd hnd hn
      | some d =>
        rw [hnd, Option.or_some, Option.some_inj] at hc
        subst hc
        exact hwn _ (List.mem_of_mem_getLast? (by rw [hnd]; rfl))
  rw [hstrip, splitWS_pair i.data n.data hi hn hwi hwn]
  simp only [stripWS_eq_self_of_all i.data hwi, stripWS_eq_self_of_all n.data hwn]

theorem splitLinesGo_cons (cur : List Char) (c : Char) (rest : List Char) :
    splitLinesGo cur (c :: rest) =
      if c = '\n' then cur.reverse :: splitLinesGo [] rest
      else splitLinesGo (c :: cur) rest := rfl

theorem splitLinesGo_append (line : List Char) (hnl : ∀ c ∈ line, c ≠ '\n') :
    ∀ cur rest, splitLinesGo cur (line ++ '\n' :: rest)
      = (cur.reverse ++ line) :: splitLinesGo [] rest := by
  induction line with
  | nil =>
    intro cur rest
    rw [List.nil_append, splitLinesGo_cons, if_pos rfl]
    simp
  | cons c cs ih =>
    intro cur rest
    rw [List.cons_append, splitLinesGo_cons,
      if_neg (hnl c (List.mem_cons_self c cs)),
      ih (fun d hd => hnl d (List.mem_cons_of_mem c hd)) (c :: cur) rest]
    simp

theorem read_lock_loop (export_path : Path) (lock : List (String × Path))
    (hvalid : ∀ e ∈ lock, e.1.data ≠ [] ∧ (∀ c ∈ e.1.data, isWS c = false) ∧
      e.2 = pushComp export_path (nameOf e.2) ∧ (nameOf e.2).data ≠ [] ∧
      (∀ c ∈ (nameOf e.2).data, isWS c = false)) :
    read_lock export_path (joinLockLines lock) = some lock := by
  induction lock with
  | nil => rfl
  | cons e rest ih =>
    obtain ⟨hi, hwi, hp, hn, hwn⟩ := hvalid e (List.mem_cons_self e rest)
    have ih' := ih (fun f hf => hvalid f (List.mem_cons_of_mem e hf))
    unfold read_lock at ih' ⊢
    rw [show joinLockLines (e :: rest) = lockLine e ++ joinLockLines rest from rfl,
      String.data_append]
    have hline : (lockLine e).data ++ (joinLockLines rest).data
        = (e.1.data ++ ' ' :: (nameOf e.2).data) ++ '\n' :: (joinLockLines rest).data := by
      simp [lockLine, String.data_append]
    rw [hline]
    unfold splitLines
    have hnl : ∀ c ∈ e.1.data ++ ' ' :: (nameOf e.2).data, c ≠ '\n' := by
      intro c hc
      rcases List.mem_append.mp hc with hc' | hc'
      · intro hceq
        subst hceq
        have := hwi _ hc'
        simp [isWS] at this
      · rcases List.mem_cons.mp hc' with rfl | hc''
        · decide
        · intro hceq
          subst hceq
          have := hwn _ hc''
          simp [isWS] at this
    rw [splitLinesGo_append (e.1.data ++ ' ' :: (nameOf e.2).data) hnl [] _]
    rw [List.reverse_nil, List.nil_append, List.mapM_cons,
      parseLockLine_ok export_path e.1 (nameOf e.2) hi hn hwi hwn]
    unfold splitLines at ih'
    rw [ih']
    rw [← hp]
    rfl

theorem resolveCollision_spec (fs : FS) (subdir_path path : Path) :
    ∀ fuel inc res,
      resolveCollision fs subdir_path path inc fuel = some res →
      lookupFS fs res = none ∧
      ∃ n, inc ≤ n ∧ res = collisionCand subdir_path path n ∧
        ∀ m, inc ≤ m → m < n →
          (lookupFS fs (collisionCand subdir_path path m)).isSome := by
  intro fuel
  induction fuel with
  | zero => intro inc res h; simp [resolveCollision] at h
  | succ k ih =>
    intro inc res h
    unfold resolveCollision at h
    by_cases hocc : (lookupFS fs (collisionCand subdir_path path inc)).isSome
    · rw [if_pos hocc] at h
      obtain ⟨hfree, n, hn, hres, hmin⟩ := ih (inc + 1) res h
      refine ⟨hfree, n, Nat.le_of_succ_le hn, hres, ?_⟩
      intro m hm₁ hm₂
      rcases Nat.eq_or_lt_of_le hm₁ with rfl | hlt
      · exact hocc
      · exact hmin m hlt hm₂
    · rw [if_neg hocc] at h
      rw [Option.some_inj] at h
      subst h
      refine ⟨Option.not_isSome_iff_eq_none.mp hocc, inc, Nat.le_refl inc, rfl, ?_⟩
      intro m hm₁ hm₂
      omega

theorem move_to_subdir_fresh (fs : FS) (path subdir_path : Path) (fuel : Nat)
    (res : Path) (h : move_to_subdir fs path subdir_path fuel = some res) :
    lookupFS fs res = none := by
  unfold move_to_subdir at h
  by_cases hocc : (lookupFS fs (pushComp subdir_path (nameOf path))).isSome
  · rw [if_pos hocc] at h
    exact (resolveCollision_spec fs subdir_path path fuel 1 res h).1
  · rw [if_neg hocc] at h
    rw [Option.some_inj] at h
    subst h
    exact Option.not_isSome_iff_eq_none.mp hocc

theorem move_to_subdir_child (fs : FS) (path subdir_path : Path) (fuel : Nat)
    (res : Path) (h : move_to_subdir fs path subdir_path fuel = some res) :
    ∃ s, res = pushComp subdir_path s := by
  unfold move_to_subdir at h
  by_cases hocc : (lookupFS fs (pushComp subdir_path (nameOf path))).isSome
  · rw [if_pos hocc] at h
    obtain ⟨-, n, -, hres, -⟩ := resolveCollision_spec fs subdir_path path fuel 1 res h
    exact ⟨_, hres⟩
  · rw [if_neg hocc] at h
    rw [Option.some_inj] at h
    exact ⟨_, h.symm⟩

theorem renames_self (items : List (String × Item)) (export_path : Path)
    (hids : (items.map Prod.fst).Nodup) :
    ∀ existing : List Path,
      (∀ p ∈ existing, ∃ a ∈ items, p = item_path a.2 export_path) →
      renamesOf items (newLockOf items export_path) export_path existing
        = existing.map (fun p => (p, p)) := by
  intro existing
  induction existing with
  | nil => intro _; rfl
  | cons p rest ih =>
    intro hex
    obtain ⟨a, ha, rfl⟩ := hex p (List.mem_cons_self p rest)
    unfold renamesOf
    rw [List.filterMap_cons]
    rw [pyGetP_movePaths_self items export_path hids a ha]
    have ih' := ih (fun q hq => hex q (List.mem_cons_of_mem _ hq))
    unfold renamesOf at ih'
    rw [List.map_cons, ih']

/-! ### Claim theorems -/

/-- C5: for the scenario-A item (single author surname "Smith", date
"2021-05-01", title "A Study: Of Things!") the derived target file name is
`smith21-a-study-of-things.pdf`; and the year token is taken after the
last `/` when the date contains `/`, else before the first `-` when it
contains `-`, else is the whole date string, keeping its last two
characters when longer than two. -/
theorem c5_filename_derivation :
    item_path ⟨⟨[⟨"author", some "Smith", "Jane Smith"⟩], "A Study: Of Things!"⟩,
        ⟨some "2021-05-01"⟩⟩ ["export"]
      = ["export", "smith21-a-study-of-things.pdf"] ∧
    year_of "2021-05-01" = "21" ∧
    year_of "2020/05/1999" = "99" ∧
    year_of "05/2021" = "21" ∧
    year_of "2021-05-01/1999" = "99" ∧
    year_of "1984" = "84" ∧
    year_of "84" = "84" ∧
    year_of "" = "" := by
  decide

/-- C7: the ledger round-trips — for every ledger whose identifiers and
file names are non-empty and whitespace-free, and whose paths name files
directly under the export directory (given here in the canonical
identifier-sorted order in which `_write_lock` serialises a dict),
reading back the written file yields the very same ledger. -/
theorem c7_ledger_roundtrip (export_path : Path) (lock : List (String × Path))
    (hsorted : List.Pairwise (fun a b => a.1 < b.1) lock)
    (hvalid : ∀ e ∈ lock, e.1.data ≠ [] ∧ (∀ c ∈ e.1.data, isWS c = false) ∧
      e.2 = pushComp export_path (nameOf e.2) ∧ (nameOf e.2).data ≠ [] ∧
      (∀ c ∈ (nameOf e.2).data, isWS c = false)) :
    read_lock export_path (write_lock lock) = some lock := by
  unfold write_lock
  rw [sortLock_sorted lock hsorted]
  exact read_lock_loop export_path lock hvalid

/-- C7 (witness): the round-trip at a concrete two-entry ledger. -/
theorem c7_witness :
    read_lock ["export"]
        (write_lock [("a1", ["export", "x.pdf"]), ("b2", ["export", "y.pdf"])])
      = some [("a1", ["export", "x.pdf"]), ("b2", ["export", "y.pdf"])] :=
  c7_ledger_roundtrip ["export"]
    [("a1", ["export", "x.pdf"]), ("b2", ["export", "y.pdf"])]
    (by
      refine List.pairwise_cons.mpr ⟨?_, List.pairwise_singleton _ _⟩
      intro b hb
      rw [List.mem_singleton] at hb
      subst hb
      refine String.lt_iff_toList_lt.mpr ?_
      decide)
    (by decide)

/-- C8: the Name Normalizer is idempotent —
`normalize(normalize(x)) = normalize(x)` for every string `x`. -/
theorem c8_normalize_idempotent (x : String) :
    normalize_name (normalize_name x) = normalize_name x := by
  obtain ⟨d, hd⟩ : ∃ d, normalizeChars x.data = d := ⟨_, rfl⟩
  have h1 : normalize_name x = ⟨d⟩ := by
    unfold normalize_name
    rw [hd]
  rw [h1]
  unfold normalize_name
  rw [show (⟨d⟩ : String).data = d from rfl, ← hd, normalizeChars_idem]

/-- C10: the Filename Deriver considers only creators whose
`creatorType` is `"author"`, in listed order; the surname used is the
first such creator's `lastName` field when present and otherwise its
`name` field; the sentinel `"noauthor"` is picked exactly when no
author-typed creator exists. -/
theorem c10_author_fallback (item : Item) :
    first_author_pick item =
      match item.data.creators.filter (fun c => c.creatorType = "author") with
      | [] => "noauthor"
      | c :: _ =>
        match c.lastName with
        | some l => l
        | none => c.name := by
  unfold first_author_pick first_author_last_names
  cases h : item.data.creators.filter (fun c => c.creatorType = "author") with
  | nil => simp [h]
  | cons c cs =>
    cases hl : c.lastName with
    | none => simp [h, hl]
    | some l => simp [h, hl]

/-- C2 (counterexample): the Reconciler performs no intra-run collision
resolution — two distinct items normalizing to the same file name yield
the same target path, so the target-path list of the run has a
duplicate. -/
theorem c2_counterexample :
    ¬ ((itemPathsOf
        [("i1", ⟨⟨[⟨"author", some "Smith", ""⟩], "T"⟩, ⟨some "2021-05-01"⟩⟩),
         ("i2", ⟨⟨[⟨"author", some "Smith", ""⟩], "T"⟩, ⟨some "2021-05-01"⟩⟩)]
        [] ["export"]).map (fun e => e.2.2)).Nodup := by
  decide

/-- C2 (amended): the target paths of a run are pairwise distinct
provided no two items of the run derive the same file name; the code
itself never disambiguates a colliding pair. -/
theorem c2_no_collision_amended (items : List (String × Item))
    (lock : List (String × Path)) (export_path : Path)
    (h : (items.map (fun e => item_file_name e.2)).Nodup) :
    ((itemPathsOf items lock export_path).map (fun e => e.2.2)).Nodup := by
  have hmap : (itemPathsOf items lock export_path).map (fun e => e.2.2)
      = (items.map (fun e => item_file_name e.2)).map (pushComp export_path) := by
    simp [itemPathsOf, item_path, List.map_map]
  rw [hmap]
  exact h.map (pushComp_inj export_path)

/-- C2 (witness): the amended no-collision statement at a two-item run
with distinct derived file names. -/
theorem c2_witness :
    ((itemPathsOf
        [("i1", ⟨⟨[⟨"author", some "Smith", ""⟩], "T"⟩, ⟨some "2021-05-01"⟩⟩),
         ("i2", ⟨⟨[⟨"author", some "Jones", ""⟩], "T"⟩, ⟨some "2021-05-01"⟩⟩)]
        [] ["export"]).map (fun e => e.2.2)).Nodup :=
  c2_no_collision_amended _ _ _ (by decide)

/-- C3 (counterexample): an item whose identifier is in the ledger but
whose recorded path is absent from the existing-file set is neither
fetched nor renamed — with no file on disk, the run leaves the item
without a file, while the claim asks for a `Fetch` action. -/
theorem c3_counterexample :
    downloadListOf
        [("i1", ⟨⟨[⟨"author", some "Smith", ""⟩], "T"⟩, ⟨some "2021-05-01"⟩⟩)]
        [("i1", ["export", "old.pdf"])] ["export"] = [] ∧
    renamesOf
        [("i1", ⟨⟨[⟨"author", some "Smith", ""⟩], "T"⟩, ⟨some "2021-05-01"⟩⟩)]
        [("i1", ["export", "old.pdf"])] ["export"] [] = [] := by
  decide

/-- C3 (amended): an item whose identifier has a ledger entry is never
fetched, whether or not the recorded path still exists on disk; a stale
ledger entry therefore leaves the item without a file instead of being
treated as new. -/
theorem c3_ledgered_never_fetched (items : List (String × Item))
    (lock : List (String × Path)) (export_path : Path) (item_id : String)
    (h : (pyGet lock item_id).isSome) (t : Path) :
    (item_id, t) ∉ downloadListOf items lock export_path := by
  intro hmem
  unfold downloadListOf at hmem
  rw [List.mem_filterMap] at hmem
  obtain ⟨e, he, hmatch⟩ := hmem
  unfold itemPathsOf at he
  rw [List.mem_map] at he
  obtain ⟨a, _, rfl⟩ := he
  revert hmatch
  cases hg : pyGet lock a.1 with
  | none =>
    intro hmatch
    simp only [Option.some.injEq, Prod.mk.injEq] at hmatch
    rcases hmatch with ⟨rfl, -⟩
    rw [hg] at h
    simp at h
  | some old =>
    intro hmatch
    simp at hmatch

/-- C3 (witness): the amended statement at a concrete one-item run whose
ledger records a path that no longer exists. -/
theorem c3_witness :
    ("i1", (["export", "new.pdf"] : Path)) ∉ downloadListOf
        [("i1", ⟨⟨[⟨"author", some "Smith", ""⟩], "T"⟩, ⟨some "2021-05-01"⟩⟩)]
        [("i1", ["export", "old.pdf"])] ["export"] :=
  c3_ledgered_never_fetched _ _ _ _ (by decide) _

/-- C4: rerunning reconciliation on the state a run leaves behind — the
same items, the ledger the run wrote, and an existing-file set drawn from
the freshly computed target paths — downloads nothing, quarantines
nothing, renames every file onto itself (the code's only `Noop`), and
writes back an identical ledger. -/
theorem c4_idempotence (items : List (String × Item)) (export_path : Path)
    (lock : List (String × Path)) (existing : List Path)
    (hids : (items.map Prod.fst).Nodup)
    (hlock : lock = newLockOf items export_path)
    (hex : ∀ p ∈ existing, ∃ a ∈ items, p = item_path a.2 export_path) :
    downloadListOf items lock export_path = [] ∧
    quarantinedOf items lock export_path existing = [] ∧
    renamesOf items lock export_path existing
      = existing.map (fun p => (p, p)) ∧
    newLockOf items export_path = lock := by
  subst hlock
  refine ⟨?_, ?_, renames_self items export_path hids existing hex, rfl⟩
  · unfold downloadListOf
    rw [List.filterMap_eq_nil_iff]
    intro e he
    unfold itemPathsOf at he
    rw [List.mem_map] at he
    obtain ⟨a, ha, rfl⟩ := he
    rw [pyGet_newLock items export_path hids a ha]
  · unfold quarantinedOf
    rw [List.filter_eq_nil_iff]
    intro p hp
    obtain ⟨a, ha, rfl⟩ := hex p hp
    rw [pyGetP_movePaths_self items export_path hids a ha]
    simp

/-- C4 (witness): the idempotence statement at a one-item run rerun on
its own output state. -/
theorem c4_witness :
    downloadListOf
        [("i1", ⟨⟨[⟨"author", some "Smith", ""⟩], "T"⟩, ⟨some "2021-05-01"⟩⟩)]
        (newLockOf
          [("i1", ⟨⟨[⟨"author", some "Smith", ""⟩], "T"⟩, ⟨some "2021-05-01"⟩⟩)]
          ["export"])
        ["export"] = [] ∧
    quarantinedOf
        [("i1", ⟨⟨[⟨"author", some "Smith", ""⟩], "T"⟩, ⟨some "2021-05-01"⟩⟩)]
        (newLockOf
          [("i1", ⟨⟨[⟨"author", some "Smith", ""⟩], "T"⟩, ⟨some "2021-05-01"⟩⟩)]
          ["export"])
        ["export"] [["export", "smith21-t.pdf"]] = [] ∧
    renamesOf
        [("i1", ⟨⟨[⟨"author", some "Smith", ""⟩], "T"⟩, ⟨some "2021-05-01"⟩⟩)]
        (newLockOf
          [("i1", ⟨⟨[⟨"author", some "Smith", ""⟩], "T"⟩, ⟨some "2021-05-01"⟩⟩)]
          ["export"])
        ["export"] [["export", "smith21-t.pdf"]]
      = [["export", "smith21-t.pdf"]].map (fun p => (p, p)) ∧
    newLockOf
        [("i1", ⟨⟨[⟨"author", some "Smith", ""⟩], "T"⟩, ⟨some "2021-05-01"⟩⟩)]
        ["export"]
      = newLockOf
          [("i1", ⟨⟨[⟨"author", some "Smith", ""⟩], "T"⟩, ⟨some "2021-05-01"⟩⟩)]
          ["export"] :=
  c4_idempotence _ _ _ _ (by decide) rfl (by decide)

/-- C6: `_move_to_subdir` moves the file into the subdirectory keeping
its original name when that name is free there; on collision it resolves
to `{stem}.{n}{suffix}` for the first free positive integer `n` (so a
colliding `a.pdf` resolves to `a.1.pdf` when only the plain name is
taken); and the chosen destination is never an occupied path. -/
theorem c6_quarantine_contract (fs : FS) (path subdir_path : Path)
    (fuel : Nat) (res : Path)
    (h : move_to_subdir fs path subdir_path fuel = some res) :
    lookupFS fs res = none ∧
    (lookupFS fs (pushComp subdir_path (nameOf path)) = none →
      res = pushComp subdir_path (nameOf path)) ∧
    ((lookupFS fs (pushComp subdir_path (nameOf path))).isSome →
      ∃ n, 1 ≤ n ∧ res = collisionCand subdir_path path n ∧
        ∀ m, 1 ≤ m → m < n →
          (lookupFS fs (collisionCand subdir_path path m)).isSome) := by
  refine ⟨move_to_subdir_fresh fs path subdir_path fuel res h, ?_, ?_⟩
  · intro hnone
    simp only [move_to_subdir, hnone, Option.isSome_none, Bool.false_eq_true,
      if_false, Option.some_inj] at h
    exact h.symm
  · intro hocc
    simp only [move_to_subdir, hocc, if_true] at h
    obtain ⟨-, n, hn, hres, hmin⟩ :=
      resolveCollision_spec fs subdir_path path fuel 1 res h
    exact ⟨n, hn, hres, hmin⟩

/-- C6 (witness): with `other/a.pdf` already present, quarantining
`a.pdf` resolves to the fresh path `other/a.1.pdf`. -/
theorem c6_witness :
    lookupFS [((["export", "other", "a.pdf"] : Path), 7)]
        ["export", "other", "a.1.pdf"] = none :=
  (c6_quarantine_contract [((["export", "other", "a.pdf"] : Path), 7)]
    ["export", "a.pdf"] ["export", "other"] 5 ["export", "other", "a.1.pdf"]
    (by decide)).1

theorem sessionGetGo_forcelist_error (server : Nat → Response)
    (h : ∀ k, (server k).status ∈ statusForcelist) :
    ∀ left attempt, sessionGetGo server attempt left =
      Except.error TransferFailure.retriesExceeded := by
  intro left
  induction left with
  | zero =>
    intro attempt
    simp [sessionGetGo, h attempt]
  | succ n ih =>
    intro attempt
    simp [sessionGetGo, h attempt, ih]

theorem downloadAndCommit_error_of_mem (servers : List (Nat → Response))
    (server : Nat → Response) (hmem : server ∈ servers)
    (h : download_pdf server = Except.error TransferFailure.retriesExceeded) :
    downloadAndCommit servers = Except.error TransferFailure.retriesExceeded := by
  induction servers with
  | nil => simp at hmem
  | cons s rest ih =>
    rw [List.mem_cons] at hmem
    rcases hmem with rfl | hmem
    · simp [downloadAndCommit, h]
    · unfold downloadAndCommit
      cases hd : download_pdf s with
      | error e => cases e; rfl
      | ok c => rw [ih hmem]

/-- C9: when every response the transport can obtain for an attachment
carries a status on the retry forcelist (502/503/504), the adapter's five
retries are exhausted and the download raises; the error unwinds the
download loop, so no content is recorded for the item and the commit
step is never reached. -/
theorem c9_transfer_error_fatal (pre post : List (Nat → Response))
    (server : Nat → Response)
    (h : ∀ k, (server k).status ∈ statusForcelist) :
    download_pdf server = Except.error TransferFailure.retriesExceeded ∧
    downloadAndCommit (pre ++ server :: post) =
      Except.error TransferFailure.retriesExceeded := by
  have hdl : download_pdf server = Except.error TransferFailure.retriesExceeded := by
    unfold download_pdf sessionGet
    rw [sessionGetGo_forcelist_error server h]
  refine ⟨hdl, ?_⟩
  exact downloadAndCommit_error_of_mem _ server (by simp) hdl

/-- C9 (witness): a server that always answers 502 aborts the run. -/
theorem c9_witness :
    download_pdf (fun _ => ⟨502, []⟩) =
      Except.error TransferFailure.retriesExceeded ∧
    downloadAndCommit ([] ++ (fun _ => (⟨502, []⟩ : Response)) :: []) =
      Except.error TransferFailure.retriesExceeded :=
  c9_transfer_error_fatal [] [] _ (fun _ => by decide)

theorem lookupFS_cons (e : Path × Nat) (rest : FS) (p : Path) :
    lookupFS (e :: rest) p = if e.1 = p then some e.2 else lookupFS rest p := rfl

theorem eraseFS_cons (e : Path × Nat) (rest : FS) (p : Path) :
    eraseFS (e :: rest) p = if e.1 = p then rest else e :: eraseFS rest p := rfl

theorem lookupFS_eq_none_iff (fs : FS) (p : Path) :
    lookupFS fs p = none ↔ p ∉ fs.map Prod.fst := by
  induction fs with
  | nil => simp [lookupFS]
  | cons e rest ih =>
    rw [lookupFS_cons]
    by_cases he : e.1 = p
    · simp [he]
    · simp only [List.map_cons, List.mem_cons]
      rw [if_neg he, ih]
      simp [Ne.symm he]

theorem lookupFS_some_mem_snd (fs : FS) (p : Path) (c : Nat)
    (h : lookupFS fs p = some c) : c ∈ fs.map Prod.snd := by
  induction fs with
  | nil => simp [lookupFS] at h
  | cons e rest ih =>
    rw [lookupFS_cons] at h
    by_cases he : e.1 = p
    · rw [if_pos he, Option.some_inj] at h
      subst h
      exact List.mem_map_of_mem Prod.snd (List.mem_cons_self e rest)
    · rw [if_neg he] at h
      exact List.mem_cons_of_mem _ (ih h)

theorem lookupFS_inj_of_snd_nodup (fs : FS) (hind : (fs.map Prod.snd).Nodup)
    (q₁ q₂ : Path) (c : Nat)
    (h₁ : lookupFS fs q₁ = some c) (h₂ : lookupFS fs q₂ = some c) : q₁ = q₂ := by
  induction fs with
  | nil => simp [lookupFS] at h₁
  | cons e rest ih =>
    rw [List.map_cons, List.nodup_cons] at hind
    rw [lookupFS_cons] at h₁ h₂
    by_cases he₁ : e.1 = q₁
    · by_cases he₂ : e.1 = q₂
      · rw [← he₁, ← he₂]
      · rw [if_pos he₁, Option.some_inj] at h₁
        rw [if_neg he₂] at h₂
        exact absurd (h₁ ▸ lookupFS_some_mem_snd rest q₂ c h₂) hind.1
    · by_cases he₂ : e.1 = q₂
      · rw [if_pos he₂, Option.some_inj] at h₂
        rw [if_neg he₁] at h₁
        exact absurd (h₂ ▸ lookupFS_some_mem_snd rest q₁ c h₁) hind.1
      · rw [if_neg he₁] at h₁
        rw [if_neg he₂] at h₂
        exact ih hind.2 h₁ h₂

theorem eraseFS_sublist (fs : FS) (p : Path) : (eraseFS fs p).Sublist fs := by
  induction fs with
  | nil => exact List.Sublist.refl []
  | cons e rest ih =>
    rw [eraseFS_cons]
    by_cases he : e.1 = p
    · rw [if_pos he]
      exact List.sublist_cons_self e rest
    · rw [if_neg he]
      exact List.Sublist.cons₂ e ih

theorem lookupFS_eraseFS (fs : FS) (p q : Path)
    (hnd : (fs.map Prod.fst).Nodup) :
    lookupFS (eraseFS fs p) q = if q = p then none else lookupFS fs q := by
  induction fs with
  | nil => simp [eraseFS, lookupFS]
  | cons e rest ih =>
    rw [List.map_cons, List.nodup_cons] at hnd
    rw [eraseFS_cons]
    by_cases he : e.1 = p
    · rw [if_pos he]
      by_cases hq : q = p
      · subst hq
        rw [if_pos rfl]
        exact (lookupFS_eq_none_iff rest q).mpr (he ▸ hnd.1)
      · rw [if_neg hq, lookupFS_cons,
          if_neg (show ¬e.1 = q from by rw [he]; exact Ne.symm hq)]
    · rw [if_neg he, lookupFS_cons, lookupFS_cons, ih hnd.2]
      by_cases hq : e.1 = q
      · by_cases hqp : q = p
        · exact absurd (hq.trans hqp) he
        · simp [hq, hqp]
      · simp [hq]

theorem eraseFS_of_none (fs : FS) (p : Path) (h : lookupFS fs p = none) :
    eraseFS fs p = fs := by
  induction fs with
  | nil => rfl
  | cons e rest ih =>
    rw [lookupFS_cons] at h
    rw [eraseFS_cons]
    by_cases he : e.1 = p
    · rw [if_pos he] at h
      simp at h
    · rw [if_neg he] at h
      rw [if_neg he, ih h]

theorem perm_cons_eraseFS (fs : FS) (p : Path) (c : Nat)
    (h : lookupFS fs p = some c) : fs.Perm ((p, c) :: eraseFS fs p) := by
  induction fs with
  | nil => simp [lookupFS] at h
  | cons e rest ih =>
    rw [lookupFS_cons] at h
    rw [eraseFS_cons]
    by_cases he : e.1 = p
    · rw [if_pos he, Option.some_inj] at h
      rw [if_pos he]
      have he' : e = (p, c) := by
        rw [← he, ← h]
      rw [he']
    · rw [if_neg he] at h
      rw [if_neg he]
      exact ((ih h).cons e).trans (List.Perm.swap (p, c) e (eraseFS rest p))

theorem renameFS_eq (fs : FS) (p t : Path) (c : Nat)
    (hnd : (fs.map Prod.fst).Nodup) (hp : lookupFS fs p = some c)
    (hfree : t = p ∨ lookupFS fs t = none) :
    renameFS fs p t = (t, c) :: eraseFS fs p := by
  unfold renameFS
  rw [hp]
  show (t, c) :: eraseFS (eraseFS fs p) t = (t, c) :: eraseFS fs p
  congr 1
  apply eraseFS_of_none
  rw [lookupFS_eraseFS fs p t hnd]
  rcases hfree with rfl | hfree
  · simp
  · by_cases ht : t = p
    · simp [ht]
    · simp [ht, hfree]

theorem processOne_spec (move : List (Path × Path)) (subdir_path : Path)
    (fuel : Nat) (fs : FS) (p : Path) (fs₁ : FS)
    (hnd : (fs.map Prod.fst).Nodup)
    (hfree : ∀ t, pyGetP move p = some t → t = p ∨ lookupFS fs t = none)
    (h : processOne move subdir_path fuel fs p = some fs₁) :
    ∃ c dest, lookupFS fs p = some c ∧
      (dest = p ∨ lookupFS fs dest = none) ∧
      fs₁ = (dest, c) :: eraseFS fs p ∧
      (pyGetP move p = some dest ∨
        (pyGetP move p = none ∧ ∃ s, dest = pushComp subdir_path s)) := by
  cases hp : lookupFS fs p with
  | none => simp [processOne, hp] at h
  | some c =>
    cases hm : pyGetP move p with
    | some t =>
      simp only [processOne, hp, hm, Option.some_inj] at h
      have hfree' := hfree t hm
      refine ⟨c, t, rfl, hfree', ?_, Or.inl rfl⟩
      rw [← h, renameFS_eq fs p t c hnd hp hfree']
    | none =>
      cases hq : move_to_subdir fs p subdir_path fuel with
      | none => simp [processOne, hp, hm, hq] at h
      | some q =>
        simp only [processOne, hp, hm, hq, Option.some_inj] at h
        have hfresh := move_to_subdir_fresh fs p subdir_path fuel q hq
        refine ⟨c, q, rfl, Or.inr hfresh, ?_,
          Or.inr ⟨rfl, move_to_subdir_child fs p subdir_path fuel q hq⟩⟩
        rw [← h, renameFS_eq fs p q c hnd hp (Or.inr hfresh)]

theorem pushComp_export_ne_subdir (export_path : Path) (s s' : String) :
    pushComp export_path s' ≠ pushComp (pushComp export_path "other") s := by
  intro h
  have hlen := congrArg List.length h
  simp [pushComp] at hlen

theorem movePhase_aux (move : List (Path × Path)) (export_path : Path)
    (fuel : Nat) :
    ∀ (order : List Path) (fs fs' : FS),
      movePhase fs move (pushComp export_path "other") order fuel = some fs' →
      (fs.map Prod.fst).Nodup →
      (fs.map Prod.snd).Nodup →
      order.Nodup →
      (∀ p ∈ order, p ∈ fs.map Prod.fst) →
      (∀ p ∈ order, ∀ t, pyGetP move p = some t → t = p ∨ t ∉ fs.map Prod.fst) →
      (∀ p ∈ order, ∀ q ∈ order, p ≠ q → (pyGetP move p).isSome →
        pyGetP move p = pyGetP move q → False) →
      (∀ p ∈ order, ∀ t, pyGetP move p = some t →
        ∃ s, t = pushComp export_path s) →
      ((fs'.map Prod.fst).Nodup ∧ (fs'.map Prod.snd).Nodup) ∧
      (∀ x c, lookupFS fs x = some c → x ∉ order → lookupFS fs' x = some c) ∧
      (∀ p ∈ order, ∀ c, lookupFS fs p = some c →
        ∃ q, lookupFS fs' q = some c ∧
          (pyGetP move p = some q ∨
            (pyGetP move p = none ∧
              ∃ s, q = pushComp (pushComp export_path "other") s))) := by
  intro order
  induction order with
  | nil =>
    intro fs fs' h hknd hind _ _ _ _ _
    simp only [movePhase, Option.some_inj] at h
    subst h
    exact ⟨⟨hknd, hind⟩, fun x c hx _ => hx, fun p hp => absurd hp (by simp)⟩
  | cons p rest ih =>
    intro fs fs' h hknd hind hord hmem hfree hinj htgt
    have hp_mem : p ∈ p :: rest := List.mem_cons_self p rest
    rw [List.nodup_cons] at hord
    cases h1 : processOne move (pushComp export_path "other") fuel fs p with
    | none => simp [movePhase, h1] at h
    | some fs₁ =>
      simp only [movePhase, h1] at h
      obtain ⟨c, dest, hc, hdest, hfs₁, hcase⟩ :=
        processOne_spec move (pushComp export_path "other") fuel fs p fs₁ hknd
          (fun t ht => (hfree p hp_mem t ht).imp id
            (fun hnm => (lookupFS_eq_none_iff fs t).mpr hnm)) h1
      have hkeys_erase_nodup : ((eraseFS fs p).map Prod.fst).Nodup :=
        ((eraseFS_sublist fs p).map Prod.fst).nodup hknd
      have hdest_not_erase : dest ∉ (eraseFS fs p).map Prod.fst := by
        rcases hdest with rfl | hfresh
        · rw [← lookupFS_eq_none_iff (eraseFS fs dest) dest,
            lookupFS_eraseFS fs dest dest hknd, if_pos rfl]
        · intro hcontra
          exact (lookupFS_eq_none_iff fs dest).mp hfresh
            (((eraseFS_sublist fs p).map Prod.fst).subset hcontra)
      have hknd₁ : (fs₁.map Prod.fst).Nodup := by
        rw [hfs₁, List.map_cons, List.nodup_cons]
        exact ⟨hdest_not_erase, hkeys_erase_nodup⟩
      have hind₁ : (fs₁.map Prod.snd).Nodup := by
        rw [hfs₁]
        have hperm := (perm_cons_eraseFS fs p c hc).map Prod.snd
        have : ((p, c) :: eraseFS fs p).map Prod.snd
            = ((dest, c) :: eraseFS fs p).map Prod.snd := rfl
        rw [← this]
        exact hperm.nodup hind
      have hpres : ∀ x, x ≠ p → x ∈ fs.map Prod.fst →
          lookupFS fs₁ x = lookupFS fs x := by
        intro x hxp hxmem
        have hdx : ¬dest = x := by
          rcases hdest with rfl | hfresh
          · exact fun hcontra => hxp hcontra.symm
          · intro hcontra
            subst hcontra
            exact (lookupFS_eq_none_iff fs dest).mp hfresh hxmem
        rw [hfs₁, lookupFS_cons, if_neg hdx, lookupFS_eraseFS fs p x hknd,
          if_neg hxp]
      have hq_ne_p : ∀ q ∈ rest, q ≠ p :=
        fun q hq hcontra => hord.1 (hcontra ▸ hq)
      have hmem₁ : ∀ q ∈ rest, q ∈ fs₁.map Prod.fst := by
        intro q hq
        have hqfs := hmem q (List.mem_cons_of_mem p hq)
        by_contra hcontra
        have hnone := (lookupFS_eq_none_iff fs₁ q).mpr hcontra
        rw [hpres q (hq_ne_p q hq) hqfs] at hnone
        exact (lookupFS_eq_none_iff fs q).mp hnone hqfs
      have hfree₁ : ∀ q ∈ rest, ∀ t, pyGetP move q = some t →
          t = q ∨ t ∉ fs₁.map Prod.fst := by
        intro q hq t ht
        rcases hfree q (List.mem_cons_of_mem p hq) t ht with rfl | hnm
        · exact Or.inl rfl
        · right
          rw [hfs₁, List.map_cons, List.mem_cons]
          rintro (rfl | hcontra)
          · rcases hcase with hrename | ⟨-, s, hsub⟩
            · exact hinj p hp_mem q (List.mem_cons_of_mem p hq)
                (fun hpq => hord.1 (hpq ▸ hq)) (by rw [hrename]; rfl)
                (by rw [hrename, ht])
            · obtain ⟨s', hs'⟩ := htgt q (List.mem_cons_of_mem p hq) t ht
              exact pushComp_export_ne_subdir export_path s s' (hs' ▸ hsub ▸ rfl)
          · exact hnm (((eraseFS_sublist fs p).map Prod.fst).subset hcontra)
      have IH := ih fs₁ fs' h hknd₁ hind₁ hord.2 hmem₁ hfree₁
        (fun a ha b hb => hinj a (List.mem_cons_of_mem p ha)
          b (List.mem_cons_of_mem p hb))
        (fun a ha => htgt a (List.mem_cons_of_mem p ha))
      obtain ⟨hnod', hB', hC'⟩ := IH
      refine ⟨hnod', ?_, ?_⟩
      · intro x cx hx hxnot
        rw [List.mem_cons] at hxnot
        push_neg at hxnot
        refine hB' x cx ?_ hxnot.2
        rw [hpres x hxnot.1 (by
          by_contra hcontra
          rw [(lookupFS_eq_none_iff fs x).mpr hcontra] at hx
          exact Option.noConfusion hx)]
        exact hx
      · intro q hq cq hcq
        rcases List.mem_cons.mp hq with rfl | hq'
        · have hcq' : cq = c := by
            rw [hc] at hcq
            exact (Option.some_inj.mp hcq).symm
          subst hcq'
          have hdest_not_rest : dest ∉ rest := by
            rcases hdest with rfl | hfresh
            · exact hord.1
            · intro hcontra
              exact (lookupFS_eq_none_iff fs dest).mp hfresh
                (hmem dest (List.mem_cons_of_mem _ hcontra))
          refine ⟨dest, ?_, hcase⟩
          refine hB' dest cq ?_ hdest_not_rest
          rw [hfs₁, lookupFS_cons, if_pos rfl]
        · have hlq : lookupFS fs₁ q = some cq := by
            rw [hpres q (hq_ne_p q hq') (hmem q (List.mem_cons_of_mem p hq'))]
            exact hcq
          exact hC' q hq' cq hlq

/-- C1 (counterexample): when two items in the ledger derive the same
target path, the second rename silently overwrites the first (POSIX
`rename` replaces the destination), deleting a pre-run file: starting
from files `a.pdf` (identity 0) and `c.pdf` (identity 1), the move loop
ends with a single file — identity 0 is gone, in none of the three
claimed states. -/
theorem c1_counterexample :
    movePhase
        [((["export", "a.pdf"] : Path), 0), ((["export", "c.pdf"] : Path), 1)]
        (movePathsOf
          [("i1", ⟨⟨[⟨"author", some "Smith", ""⟩], "T"⟩, ⟨some "2021-05-01"⟩⟩),
           ("i2", ⟨⟨[⟨"author", some "Smith", ""⟩], "T"⟩, ⟨some "2021-05-01"⟩⟩)]
          [("i1", ["export", "a.pdf"]), ("i2", ["export", "c.pdf"])]
          ["export"])
        ["export", "other"]
        [["export", "a.pdf"], ["export", "c.pdf"]] 5
      = some [((["export", "smith21-t.pdf"] : Path), 1)] ∧
    (0 : Nat) ∉ ([((["export", "smith21-t.pdf"] : Path), 1)] : FS).map Prod.snd := by
  decide

/-- C1 (amended): provided the run is collision-free — every rename
target is either the file's own current path or a path not occupied
before the run, no two distinct processed files share a rename target,
and every rename target lies directly under the export directory — the
move loop of `_sync` loses no file: each pre-run `.pdf` file's content
ends at exactly one path afterwards, namely its rename target (possibly
itself, i.e. left in place) when the ledger maps it to one, and a path
inside the quarantine subdirectory otherwise; it is never deleted and
never duplicated. Without the collision-freedom hypotheses the
counterexample shows a file can be silently overwritten. -/
theorem c1_no_loss_amended (move : List (Path × Path)) (export_path : Path)
    (fuel : Nat) (order : List Path) (fs fs' : FS)
    (h : movePhase fs move (pushComp export_path "other") order fuel = some fs')
    (hknd : (fs.map Prod.fst).Nodup)
    (hind : (fs.map Prod.snd).Nodup)
    (hord : order.Nodup)
    (hmem : ∀ p ∈ order, p ∈ fs.map Prod.fst)
    (hfree : ∀ p ∈ order, ∀ t, pyGetP move p = some t → t = p ∨ t ∉ fs.map Prod.fst)
    (hinj : ∀ p ∈ order, ∀ q ∈ order, p ≠ q → (pyGetP move p).isSome →
      pyGetP move p = pyGetP move q → False)
    (htgt : ∀ p ∈ order, ∀ t, pyGetP move p = some t →
      ∃ s, t = pushComp export_path s) :
    ∀ p ∈ order, ∀ c, lookupFS fs p = some c →
      ∃ q, lookupFS fs' q = some c ∧
        (∀ q', lookupFS fs' q' = some c → q' = q) ∧
        (pyGetP move p = some q ∨
          (pyGetP move p = none ∧
            ∃ s, q = pushComp (pushComp export_path "other") s)) := by
  obtain ⟨⟨-, hind'⟩, -, hC⟩ :=
    movePhase_aux move export_path fuel order fs fs' h hknd hind hord hmem
      hfree hinj htgt
  intro p hp c hc
  obtain ⟨q, hq, hcase⟩ := hC p hp c hc
  exact ⟨q, hq,
    fun q' hq' => lookupFS_inj_of_snd_nodup fs' hind' q' q c hq' hq, hcase⟩

/-- C1 (witness): a collision-free run — one file renamed to a fresh
target, one file quarantined — at concrete inputs. -/
theorem c1_witness :
    ∃ q, lookupFS
        ((movePhase
          [((["export", "a.pdf"] : Path), 0), ((["export", "b.pdf"] : Path), 1)]
          [((["export", "a.pdf"] : Path), (["export", "new.pdf"] : Path))]
          ["export", "other"]
          [["export", "a.pdf"], ["export", "b.pdf"]] 5).getD []) q = some 0 ∧
      (∀ q', lookupFS
        ((movePhase
          [((["export", "a.pdf"] : Path), 0), ((["export", "b.pdf"] : Path), 1)]
          [((["export", "a.pdf"] : Path), (["export", "new.pdf"] : Path))]
          ["export", "other"]
          [["export", "a.pdf"], ["export", "b.pdf"]] 5).getD []) q' = some 0 → q' = q) ∧
      (pyGetP [((["export", "a.pdf"] : Path), (["export", "new.pdf"] : Path))]
          ["export", "a.pdf"] = some q ∨
        (pyGetP [((["export", "a.pdf"] : Path), (["export", "new.pdf"] : Path))]
          ["export", "a.pdf"] = none ∧
          ∃ s, q = pushComp (pushComp ["export"] "other") s)) := by
  have hrun : movePhase
      [((["export", "a.pdf"] : Path), 0), ((["export", "b.pdf"] : Path), 1)]
      [((["export", "a.pdf"] : Path), (["export", "new.pdf"] : Path))]
      (pushComp ["export"] "other")
      [["export", "a.pdf"], ["export", "b.pdf"]] 5
      = some [((["export", "other", "b.pdf"] : Path), 1),
              ((["export", "new.pdf"] : Path), 0)] := by
    decide
  have hmain := c1_no_loss_amended
    [((["export", "a.pdf"] : Path), (["export", "new.pdf"] : Path))]
    ["export"] 5
    [["export", "a.pdf"], ["export", "b.pdf"]]
    [((["export", "a.pdf"] : Path), 0), ((["export", "b.pdf"] : Path), 1)]
    [((["export", "other", "b.pdf"] : Path), 1),
     ((["export", "new.pdf"] : Path), 0)]
    hrun (by decide) (by decide) (by decide) (by decide)
    (by
      intro p hp t ht
      rcases List.mem_cons.mp hp with rfl | hp'
      · rw [show pyGetP [((["export", "a.pdf"] : Path),
            (["export", "new.pdf"] : Path))] ["export", "a.pdf"]
            = some ["export", "new.pdf"] from by decide,
          Option.some_inj] at ht
        subst ht
        right
        decide
      · rcases List.mem_cons.mp hp' with rfl | hp''
        · rw [show pyGetP [((["export", "a.pdf"] : Path),
              (["export", "new.pdf"] : Path))] ["export", "b.pdf"]
              = none from by decide] at ht
          exact Option.noConfusion ht
        · simp at hp'')
    (by
      intro p hp q hq hpq hsome heq
      rcases List.mem_cons.mp hp with rfl | hp'
      · rcases List.mem_cons.mp hq with rfl | hq'
        · exact hpq rfl
        · rcases List.mem_cons.mp hq' with rfl | hq''
          · revert heq
            decide
          · simp at hq''
      · rcases List.mem_cons.mp hp' with rfl | hp''
        · revert hsome
          decide
        · simp at hp'')
    (by
      intro p hp t ht
      rcases List.mem_cons.mp hp with rfl | hp'
      · rw [show pyGetP [((["export", "a.pdf"] : Path),
            (["export", "new.pdf"] : Path))] ["export", "a.pdf"]
            = some ["export", "new.pdf"] from by decide,
          Option.some_inj] at ht
        subst ht
        exact ⟨"new.pdf", rfl⟩
      · rcases List.mem_cons.mp hp' with rfl | hp''
        · rw [show pyGetP [((["export", "a.pdf"] : Path),
              (["export", "new.pdf"] : Path))] ["export", "b.pdf"]
              = none from by decide] at ht
          exact Option.noConfusion ht
        · simp at hp'')
    ["export", "a.pdf"] (by decide) 0 (by decide)
  rw [show (movePhase
      [((["export", "a.pdf"] : Path), 0), ((["export", "b.pdf"] : Path), 1)]
      [((["export", "a.pdf"] : Path), (["export", "new.pdf"] : Path))]
      ["export", "other"]
      [["export", "a.pdf"], ["export", "b.pdf"]] 5).getD []
      = [((["export", "other", "b.pdf"] : Path), 1),
         ((["export", "new.pdf"] : Path), 0)] from by decide]
  exact hmain

end ZoteroGitSync
